import Mathlib

/-!
Verification of the yamep live-preview core: the task-list tree rewriter
(TasklistTreeprocessor in yamep/markdown_editor_app.py), the debounced
render pipeline of MarkdownEditorApp, the stylesheet fallback chain, the
relative-link base path, and the top-level failure handling of yamep/main.py.
-/

namespace Yamep

/-- Python's regex character class \s for the ASCII range: space, tab,
newline, carriage return, vertical tab and form feed.  The pattern in the
source is applied to document text; the embedding fixes the ASCII subset. -/
def isPySpace (c : Char) : Bool :=
  c = ' ' || c = '\t' || c = '\n' || c = '\r' || c = '\x0b' || c = '\x0c'

/-- The anchored regex of markdown_editor_app.py line 41: optional leading
whitespace, an opening bracket, one of x, X or a single space, a closing
bracket, at least one whitespace character, then a greedy dot-star capture
group, which in Python does not cross a newline.  Returns the marker
character and the captured group.  The engine's greedy scan is exactly this
maximal-munch scan: the whitespace runs are followed by characters no
whitespace alternative could absorb, so no backtracking point survives. -/
def taskScan (t : List Char) : Option (Char × List Char) :=
  if t[0]? = some '[' ∧ (t[1]? = some 'x' ∨ t[1]? = some 'X' ∨ t[1]? = some ' ') ∧
      t[2]? = some ']' ∧ (t.drop 3).head?.map isPySpace = some true then
    some (t[1]?.getD ' ', ((t.drop 3).dropWhile isPySpace).takeWhile (fun x => x ≠ '\n'))
  else
    none

/-- The full anchored match: skip the optional leading whitespace, then scan
the bracketed marker, the mandatory whitespace and the capture group. -/
def taskMatch (s : List Char) : Option (Char × List Char) :=
  taskScan (s.dropWhile isPySpace)

/-- Line 45 of markdown_editor_app.py: the checkbox glyph chosen from the
marker character via str.lower. -/
def checkbox (c : Char) : Char :=
  if c.toLower = 'x' then '☑' else '☐'

/-- An ElementTree element as the treeprocessor sees it: tag, attributes,
leading text, child elements, and the tail text that follows the element
inside its parent. -/
inductive Element : Type where
  | mk (tag : String) (attrib : List (String × String)) (text : Option String)
      (children : List Element) (tail : Option String) : Element

mutual
/-- Structural boolean equality of elements, used to derive decidable
equality for the nested inductive. -/
def beqElem : Element → Element → Bool
  | .mk t1 a1 x1 c1 l1, .mk t2 a2 x2 c2 l2 =>
    decide (t1 = t2) && decide (a1 = a2) && decide (x1 = x2) &&
      beqElemList c1 c2 && decide (l1 = l2)

def beqElemList : List Element → List Element → Bool
  | [], [] => true
  | c :: cs, d :: ds => beqElem c d && beqElemList cs ds
  | _ :: _, [] => false
  | [], _ :: _ => false
end

mutual
theorem beqElem_iff : ∀ a b : Element, beqElem a b = true ↔ a = b
  | .mk t1 a1 x1 c1 l1, .mk t2 a2 x2 c2 l2 => by
    simp only [beqElem, Bool.and_eq_true, decide_eq_true_eq, Element.mk.injEq]
    rw [beqElemList_iff c1 c2]
    tauto

theorem beqElemList_iff : ∀ a b : List Element, beqElemList a b = true ↔ a = b
  | [], [] => by simp [beqElemList]
  | c :: cs, d :: ds => by
    simp only [beqElemList, Bool.and_eq_true, List.cons.injEq]
    rw [beqElem_iff c d, beqElemList_iff cs ds]
  | _ :: _, [] => by simp [beqElemList]
  | [], _ :: _ => by simp [beqElemList]
end

instance : DecidableEq Element := fun a b =>
  decidable_of_iff (beqElem a b = true) (beqElem_iff a b)

def Element.tag : Element → String
  | .mk t _ _ _ _ => t

def Element.attrib : Element → List (String × String)
  | .mk _ a _ _ _ => a

def Element.text : Element → Option String
  | .mk _ _ x _ _ => x

def Element.children : Element → List Element
  | .mk _ _ _ c _ => c

def Element.tail : Element → Option String
  | .mk _ _ _ _ t => t

mutual
/-- ElementTree's Element.itertext as used on line 40: the element's own
text followed by, for each child in order, the child's itertext and then
the child's tail. -/
def itertext : Element → List Char
  | .mk _ _ text children _ => (text.getD "").data ++ itertextList children

/-- The contribution of a child list to the parent's itertext. -/
def itertextList : List Element → List Char
  | [] => []
  | c :: cs => itertext c ++ ((Element.tail c).getD "").data ++ itertextList cs
end

mutual
/-- TasklistTreeprocessor.run, lines 38 to 49: every li element of the tree,
the root included and in document order, is inspected; when the
concatenation of its descendant text matches the task pattern the element
is cleared (attributes, children, text and tail all reset), given the
task-list-item class, and given the glyph, a single space and the captured
group as its sole text.  Clearing a matched li removes its subtree before
the iteration would reach it, which the recursion reproduces by not
descending into a rewritten element. -/
def run : Element → Element
  | .mk tag attrib text children tail =>
    if tag = "li" then
      match taskMatch (itertext (.mk tag attrib text children tail)) with
      | some (c, content) =>
          .mk tag [("class", "task-list-item")]
            (some (String.mk (checkbox c :: ' ' :: content))) [] none
      | none => .mk tag attrib text (runList children) tail
    else
      .mk tag attrib text (runList children) tail

def runList : List Element → List Element
  | [] => []
  | c :: cs => run c :: runList cs
end

mutual
/-- A tree is clean when no li element in it, itself included, has
descendant text matching the task pattern. -/
def clean : Element → Bool
  | .mk tag attrib text children tail =>
    (if tag = "li" then (taskMatch (itertext (.mk tag attrib text children tail))).isNone
     else true) && cleanList children

def cleanList : List Element → Bool
  | [] => true
  | c :: cs => clean c && cleanList cs
end

/-! Lemmas about the anchored scan. -/

theorem dropWhile_append_of_all {p : Char → Bool} :
    ∀ (a l : List Char), (∀ x ∈ a, p x = true) → (a ++ l).dropWhile p = l.dropWhile p := by
  intro a l h
  induction a with
  | nil => rfl
  | cons x xs ih =>
    have hx : p x = true := h x (List.mem_cons_self x xs)
    simp only [List.cons_append, List.dropWhile_cons_of_pos hx]
    exact ih (fun y hy => h y (List.mem_cons_of_mem x hy))

theorem taskScan_cons (c h0 : Char) (rest : List Char)
    (hc : c = 'x' ∨ c = 'X' ∨ c = ' ') (hh : isPySpace h0 = true) :
    taskScan ('[' :: c :: ']' :: h0 :: rest) =
      some (c, ((h0 :: rest).dropWhile isPySpace).takeWhile (fun x => x ≠ '\n')) := by
  have hP : ('[' :: c :: ']' :: h0 :: rest)[0]? = some '[' ∧
      (('[' :: c :: ']' :: h0 :: rest)[1]? = some 'x' ∨
        ('[' :: c :: ']' :: h0 :: rest)[1]? = some 'X' ∨
        ('[' :: c :: ']' :: h0 :: rest)[1]? = some ' ') ∧
      ('[' :: c :: ']' :: h0 :: rest)[2]? = some ']' ∧
      (('[' :: c :: ']' :: h0 :: rest).drop 3).head?.map isPySpace = some true := by
    refine ⟨rfl, ?_, rfl, ?_⟩
    · rcases hc with h | h | h <;> simp [h]
    · show some (isPySpace h0) = some true
      rw [hh]
  unfold taskScan
  rw [if_pos hP]
  rfl

theorem taskMatch_decomp_isSome (a : List Char) (c h0 : Char) (rest : List Char)
    (ha : ∀ x ∈ a, isPySpace x = true)
    (hc : c = 'x' ∨ c = 'X' ∨ c = ' ') (hh : isPySpace h0 = true) :
    (taskMatch (a ++ '[' :: c :: ']' :: h0 :: rest)).isSome = true := by
  unfold taskMatch
  rw [dropWhile_append_of_all a _ ha,
    List.dropWhile_cons_of_neg (by decide : ¬ isPySpace '[' = true),
    taskScan_cons c h0 rest hc hh]
  rfl

theorem taskMatch_some_decomp (s : List Char) (c : Char) (content : List Char)
    (h : taskMatch s = some (c, content)) :
    ∃ a h0 rest, s = a ++ '[' :: c :: ']' :: h0 :: rest ∧
      (∀ x ∈ a, isPySpace x = true) ∧ (c = 'x' ∨ c = 'X' ∨ c = ' ') ∧
      isPySpace h0 = true ∧
      content = ((h0 :: rest).dropWhile isPySpace).takeWhile (fun x => x ≠ '\n') := by
  have hs : s = s.takeWhile isPySpace ++ s.dropWhile isPySpace :=
    (List.takeWhile_append_dropWhile isPySpace s).symm
  have hamem : ∀ x ∈ s.takeWhile isPySpace, isPySpace x = true :=
    fun _ hx => List.mem_takeWhile_imp hx
  unfold taskMatch taskScan at h
  split at h
  case isFalse => exact absurd h (by simp)
  case isTrue hP =>
    obtain ⟨h0cond, hcd, h2cond, h3cond⟩ := hP
    cases ht : s.dropWhile isPySpace with
    | nil => rw [ht] at h0cond; exact absurd h0cond (by simp)
    | cons b0 t1 =>
      rw [ht] at h0cond hcd h2cond h3cond h
      have hb0 : b0 = '[' := by simpa using h0cond
      cases t1 with
      | nil => exact absurd hcd (by simp)
      | cons b1 t2 =>
        cases t2 with
        | nil => exact absurd h2cond (by simp)
        | cons b2 t3 =>
          have hb2 : b2 = ']' := by simpa using h2cond
          cases t3 with
          | nil => exact absurd h3cond (by simp)
          | cons b3 t4 =>
            have hh : isPySpace b3 = true := by simpa using h3cond
            simp only [List.getElem?_cons_succ, List.getElem?_cons_zero, Option.getD_some,
              List.drop_succ_cons, List.drop_zero, Option.some.injEq, Prod.mk.injEq] at h
            obtain ⟨hc1, hcontent⟩ := h
            have hcdisj : c = 'x' ∨ c = 'X' ∨ c = ' ' := by
              rw [← hc1]
              simpa using hcd
            refine ⟨s.takeWhile isPySpace, b3, t4, ?_, hamem, hcdisj, hh, hcontent.symm⟩
            rw [ht, hb0, hb2, hc1] at hs
            exact hs

/-- When a string of the shape p ++ g :: w matches the decomposed pattern and
the character g can play no role in the pattern prefix, the whole pattern
prefix lies inside p. -/
theorem pat_inside (a : List Char) :
    ∀ (p : List Char) (g : Char) (w : List Char) (c h0 : Char) (t : List Char),
      (∀ x ∈ a, isPySpace x = true) → (c = 'x' ∨ c = 'X' ∨ c = ' ') →
      isPySpace h0 = true → isPySpace g = false →
      g ≠ '[' → g ≠ ']' → g ≠ 'x' → g ≠ 'X' → g ≠ ' ' →
      p ++ g :: w = a ++ '[' :: c :: ']' :: h0 :: t →
      ∃ t0, p = a ++ '[' :: c :: ']' :: h0 :: t0 := by
  induction a with
  | nil =>
    intro p g w c h0 t _ hc hh hg0 hg1 hg2 hg3 hg4 hg5 heq
    cases p with
    | nil =>
      exact absurd (List.head_eq_of_cons_eq heq) hg1
    | cons p0 p1 =>
      obtain ⟨hp0, heq1⟩ := List.cons.inj heq
      cases p1 with
      | nil =>
        have hgc : g = c := List.head_eq_of_cons_eq heq1
        rcases hc with h | h | h <;> rw [h] at hgc
        · exact absurd hgc hg3
        · exact absurd hgc hg4
        · exact absurd hgc hg5
      | cons p2 p3 =>
        obtain ⟨hp2, heq2⟩ := List.cons.inj heq1
        cases p3 with
        | nil =>
          exact absurd (List.head_eq_of_cons_eq heq2) hg2
        | cons p4 p5 =>
          obtain ⟨hp4, heq3⟩ := List.cons.inj heq2
          cases p5 with
          | nil =>
            have : g = h0 := List.head_eq_of_cons_eq heq3
            rw [this, hh] at hg0
            exact absurd hg0 (by simp)
          | cons p6 p7 =>
            obtain ⟨hp6, -⟩ := List.cons.inj heq3
            exact ⟨p7, by rw [hp0, hp2, hp4, hp6]; rfl⟩
  | cons y ys ih =>
    intro p g w c h0 t hall hc hh hg0 hg1 hg2 hg3 hg4 hg5 heq
    have hy : isPySpace y = true := hall y (List.mem_cons_self y ys)
    cases p with
    | nil =>
      have : g = y := List.head_eq_of_cons_eq heq
      rw [this, hy] at hg0
      exact absurd hg0 (by simp)
    | cons p0 p1 =>
      obtain ⟨hp0, heq1⟩ := List.cons.inj heq
      obtain ⟨t0, hres⟩ := ih p1 g w c h0 t
        (fun x hx => hall x (List.mem_cons_of_mem y hx)) hc hh hg0 hg1 hg2 hg3 hg4 hg5 heq1
      exact ⟨t0, by rw [hp0, hres]; rfl⟩

/-- If a string does not match, prefixing the same context to a
glyph-headed replacement cannot create a match: the glyph can satisfy no
slot of the pattern, so any match would already have been a match of
the original string. -/
theorem taskMatch_glyph_block (p u : List Char) (g : Char) (w : List Char)
    (hg : g = '☑' ∨ g = '☐') (hnone : taskMatch (p ++ u) = none) :
    taskMatch (p ++ g :: w) = none := by
  cases hmatch : taskMatch (p ++ g :: w) with
  | none => rfl
  | some pr =>
    obtain ⟨c, content⟩ := pr
    obtain ⟨a, h0, rest, heq, ha, hc, hh, -⟩ :=
      taskMatch_some_decomp (p ++ g :: w) c content hmatch
    have hgfacts : isPySpace g = false ∧ g ≠ '[' ∧ g ≠ ']' ∧ g ≠ 'x' ∧ g ≠ 'X' ∧ g ≠ ' ' := by
      rcases hg with h | h <;> rw [h] <;> refine ⟨by decide, by decide, by decide,
        by decide, by decide, by decide⟩
    obtain ⟨hg0, hg1, hg2, hg3, hg4, hg5⟩ := hgfacts
    obtain ⟨t0, hp⟩ := pat_inside a p g w c h0 rest ha hc hh hg0 hg1 hg2 hg3 hg4 hg5 heq
    have hSome : (taskMatch (p ++ u)).isSome = true := by
      rw [hp, List.append_assoc]
      exact taskMatch_decomp_isSome a c h0 (t0 ++ u) ha hc hh
    rw [hnone] at hSome
    exact absurd hSome (by simp)

/-- A string whose head is a checkbox glyph does not match the pattern. -/
theorem taskMatch_glyphHead_none (g : Char) (w : List Char) (hg : g = '☑' ∨ g = '☐') :
    taskMatch (g :: w) = none := by
  unfold taskMatch taskScan
  rw [List.dropWhile_cons_of_neg (by rcases hg with h | h <;> rw [h] <;> decide)]
  rw [if_neg]
  intro hP
  have := hP.1
  rw [List.getElem?_cons_zero] at this
  have hgb : g = '[' := by simpa using this
  rcases hg with h | h <;> rw [h] at hgb <;> exact absurd hgb (by decide)

/-- The checkbox glyph is one of the two checkbox characters. -/
theorem checkbox_glyph (c : Char) : checkbox c = '☑' ∨ checkbox c = '☐' := by
  unfold checkbox
  split
  · exact Or.inl rfl
  · exact Or.inr rfl

/-! Relating the concatenated text of a tree before and after run.  The
rewriter only touches matched li elements; in the parent's concatenated
text the replacement region always begins with a checkbox glyph, and the
unchanged part before it is a common prefix. -/

/-- A character list headed by a checkbox glyph. -/
def GlyphHead (v : List Char) : Prop := ∃ w, v = '☑' :: w ∨ v = '☐' :: w

theorem glyphHead_checkbox (c : Char) (r : List Char) : GlyphHead (checkbox c :: r) := by
  rcases checkbox_glyph c with h | h <;> rw [h]
  · exact ⟨r, Or.inl rfl⟩
  · exact ⟨r, Or.inr rfl⟩

/-- Old and new text share a prefix after which the new text, when it
differs at all, continues with a checkbox glyph. -/
def Sim (old new : List Char) : Prop :=
  new = old ∨ ∃ p u v, old = p ++ u ∧ new = p ++ v ∧ GlyphHead v

theorem Sim.refl (l : List Char) : Sim l l := Or.inl rfl

theorem Sim.append {a a2 b b2 : List Char} (h1 : Sim a a2) (h2 : Sim b b2) :
    Sim (a ++ b) (a2 ++ b2) := by
  rcases h1 with h1 | ⟨p, u, v, hpu, hpv, hgl⟩
  · rw [h1]
    rcases h2 with h2 | ⟨q, u, v, hqu, hqv, hgl⟩
    · rw [h2]
      exact Or.inl rfl
    · exact Or.inr ⟨a ++ q, u, v, by rw [hqu, List.append_assoc],
        by rw [hqv, List.append_assoc], hgl⟩
  · refine Or.inr ⟨p, u ++ b, v ++ b2, by rw [hpu, List.append_assoc],
      by rw [hpv, List.append_assoc], ?_⟩
    obtain ⟨w, hw⟩ := hgl
    rcases hw with hw | hw <;> rw [hw]
    · exact ⟨w ++ b2, Or.inl rfl⟩
    · exact ⟨w ++ b2, Or.inr rfl⟩

/-- A non-match stays a non-match across the rewrite of inner content. -/
theorem Sim.taskMatch_none {old new : List Char} (h : Sim old new)
    (hn : taskMatch old = none) : taskMatch new = none := by
  rcases h with h | ⟨p, u, v, hpu, hpv, hgl⟩
  · rw [h, hn]
  · obtain ⟨w, hw⟩ := hgl
    subst hpu
    subst hpv
    rcases hw with hw | hw <;> rw [hw] <;>
      exact taskMatch_glyph_block p u _ w (by simp) hn

mutual
/-- The contribution of an element to its parent's itertext, before and
after running the rewriter, satisfies Sim. -/
theorem run_sim_contrib : ∀ e : Element,
    Sim (itertext e ++ ((Element.tail e).getD "").data)
        (itertext (run e) ++ ((Element.tail (run e)).getD "").data)
  | .mk tag attrib text children tail => by
    by_cases htag : tag = "li"
    · cases hm : taskMatch (itertext (Element.mk tag attrib text children tail)) with
      | some pr =>
        obtain ⟨c, content⟩ := pr
        have hrun : run (Element.mk tag attrib text children tail) =
            Element.mk tag [("class", "task-list-item")]
              (some (String.mk (checkbox c :: ' ' :: content))) [] none := by
          unfold run
          rw [if_pos htag, hm]
        have hnew : itertext (Element.mk tag [("class", "task-list-item")]
              (some (String.mk (checkbox c :: ' ' :: content))) [] none) ++
            ((Element.tail (Element.mk tag [("class", "task-list-item")]
              (some (String.mk (checkbox c :: ' ' :: content))) [] none)).getD "").data
            = checkbox c :: ' ' :: content := by
          simp [itertext, itertextList, Element.tail]
        rw [hrun, hnew]
        exact Or.inr ⟨[], _, _, rfl, rfl, glyphHead_checkbox c (' ' :: content)⟩
      | none =>
        have hrun : run (Element.mk tag attrib text children tail) =
            Element.mk tag attrib text (runList children) tail := by
          unfold run
          rw [if_pos htag, hm]
        rw [hrun]
        show Sim (((text.getD "").data ++ itertextList children) ++ _)
          (((text.getD "").data ++ itertextList (runList children)) ++ _)
        exact Sim.append (Sim.append (Sim.refl _) (run_sim_list children)) (Sim.refl _)
    · have hrun : run (Element.mk tag attrib text children tail) =
          Element.mk tag attrib text (runList children) tail := by
        unfold run
        rw [if_neg htag]
      rw [hrun]
      show Sim (((text.getD "").data ++ itertextList children) ++ _)
        (((text.getD "").data ++ itertextList (runList children)) ++ _)
      exact Sim.append (Sim.append (Sim.refl _) (run_sim_list children)) (Sim.refl _)

/-- The concatenated contributions of a child list, before and after the
rewriter, satisfy Sim. -/
theorem run_sim_list : ∀ l : List Element, Sim (itertextList l) (itertextList (runList l))
  | [] => Sim.refl []
  | c :: cs => by
    have h := Sim.append (run_sim_contrib c) (run_sim_list cs)
    simp only [itertextList, runList, List.append_assoc] at h ⊢
    exact h
end

mutual
/-- After running the rewriter no li element of the result matches the
task pattern: matched items now start with a glyph, and an unmatched item
cannot start matching, since its concatenated text changes only from the
start of some rewritten descendant on, and that change leads with a glyph. -/
theorem run_clean : ∀ e : Element, clean (run e) = true
  | .mk tag attrib text children tail => by
    by_cases htag : tag = "li"
    · cases hm : taskMatch (itertext (Element.mk tag attrib text children tail)) with
      | some pr =>
        obtain ⟨c, content⟩ := pr
        have hrun : run (Element.mk tag attrib text children tail) =
            Element.mk tag [("class", "task-list-item")]
              (some (String.mk (checkbox c :: ' ' :: content))) [] none := by
          unfold run
          rw [if_pos htag, hm]
        have hit : itertext (Element.mk tag [("class", "task-list-item")]
            (some (String.mk (checkbox c :: ' ' :: content))) [] none)
            = checkbox c :: ' ' :: content := by
          simp [itertext, itertextList]
        rw [hrun]
        simp only [clean, cleanList]
        rw [if_pos htag, hit,
          taskMatch_glyphHead_none (checkbox c) (' ' :: content) (checkbox_glyph c)]
        rfl
      | none =>
        have hrun : run (Element.mk tag attrib text children tail) =
            Element.mk tag attrib text (runList children) tail := by
          unfold run
          rw [if_pos htag, hm]
        have hsim : Sim (itertext (Element.mk tag attrib text children tail))
            (itertext (Element.mk tag attrib text (runList children) tail)) := by
          simp only [itertext]
          exact Sim.append (Sim.refl _) (run_sim_list children)
        rw [hrun]
        simp only [clean]
        rw [if_pos htag, hsim.taskMatch_none hm, runList_clean children]
        rfl
    · have hrun : run (Element.mk tag attrib text children tail) =
          Element.mk tag attrib text (runList children) tail := by
        unfold run
        rw [if_neg htag]
      rw [hrun]
      simp only [clean]
      rw [if_neg htag, runList_clean children]
      rfl

theorem runList_clean : ∀ l : List Element, cleanList (runList l) = true
  | [] => by simp [runList, cleanList]
  | c :: cs => by
    simp only [runList, cleanList]
    rw [run_clean c, runList_clean cs]
    rfl
end

mutual
/-- On a clean tree the rewriter is the identity. -/
theorem run_of_clean : ∀ e : Element, clean e = true → run e = e
  | .mk tag attrib text children tail => by
    intro h
    simp only [clean, Bool.and_eq_true] at h
    obtain ⟨h1, h2⟩ := h
    by_cases htag : tag = "li"
    · rw [if_pos htag] at h1
      have hm : taskMatch (itertext (Element.mk tag attrib text children tail)) = none :=
        Option.isNone_iff_eq_none.mp h1
      unfold run
      rw [if_pos htag, hm]
      show Element.mk tag attrib text (runList children) tail = _
      rw [runList_of_clean children h2]
    · unfold run
      rw [if_neg htag, runList_of_clean children h2]

theorem runList_of_clean : ∀ l : List Element, cleanList l = true → runList l = l
  | [] => fun _ => by simp [runList]
  | c :: cs => by
    intro h
    simp only [cleanList, Bool.and_eq_true] at h
    simp only [runList]
    rw [run_of_clean c h.1, runList_of_clean cs h.2]
end

theorem runList_length : ∀ l : List Element, (runList l).length = l.length
  | [] => by simp [runList]
  | c :: cs => by simp only [runList, List.length_cons, runList_length cs]

/-- How run rewrites a matched li element (lines 42 to 48). -/
theorem run_match_eq (e : Element) (c : Char) (content : List Char)
    (htag : e.tag = "li") (hm : taskMatch (itertext e) = some (c, content)) :
    run e = Element.mk "li" [("class", "task-list-item")]
      (some (String.mk (checkbox c :: ' ' :: content))) [] none := by
  obtain ⟨tag, attrib, text, children, tail⟩ := e
  simp only [Element.tag] at htag
  subst htag
  unfold run
  rw [if_pos rfl, hm]

/-- How run treats an unmatched li element: same element, children
processed recursively. -/
theorem run_nomatch_eq (e : Element)
    (hm : e.tag ≠ "li" ∨ taskMatch (itertext e) = none) :
    run e = Element.mk e.tag e.attrib e.text (runList e.children) e.tail := by
  obtain ⟨tag, attrib, text, children, tail⟩ := e
  simp only [Element.tag, Element.attrib, Element.text, Element.children, Element.tail] at hm ⊢
  unfold run
  by_cases htag : tag = "li"
  · rcases hm with hm | hm
    · exact absurd htag hm
    · rw [if_pos htag, hm]
  · rw [if_neg htag]

/-! Claim theorems. -/

/-- C1 counterexample: for the list item whose concatenated text is
"[x] a\nb" the pattern matches, yet the rewritten sole text is "☑ a":
the capture group stops at the newline, so the glyph is not followed by
the full remainder "a\nb" as the claim asserts. -/
theorem C1_full_remainder_counterexample :
    taskMatch (itertext (Element.mk "li" [] (some "[x] a\nb") [] none)) =
      some ('x', "a".data) ∧
    run (Element.mk "li" [] (some "[x] a\nb") [] none) =
      Element.mk "li" [("class", "task-list-item")] (some "☑ a") [] none ∧
    ("☑ a" : String) ≠ "☑ " ++ "a\nb" :=
  ⟨by decide, by decide, by decide⟩

/-- C1 (amended): for every list-item node whose concatenated descendant
text matches the task pattern, the rewriter drops the children, sets the
task-item marker attribute and sets the sole text to the checkbox glyph
(☑ for x or X, ☐ for a blank marker), one space, and the captured
remainder, where the capture extends only up to the first newline of the
remaining text: text after a newline inside the item is dropped. -/
theorem C1_task_item_rewrite (e : Element) (c : Char) (content : List Char)
    (htag : e.tag = "li") (hm : taskMatch (itertext e) = some (c, content)) :
    run e = Element.mk "li" [("class", "task-list-item")]
      (some (String.mk (checkbox c :: ' ' :: content))) [] none ∧
    ((c = 'x' ∨ c = 'X') → checkbox c = '☑') ∧ (c = ' ' → checkbox c = '☐') ∧
    content = content.takeWhile (fun x => x ≠ '\n') := by
  refine ⟨run_match_eq e c content htag hm, ?_, ?_, ?_⟩
  · rintro (h | h) <;> rw [h] <;> decide
  · intro h
    rw [h]
    decide
  · obtain ⟨a, h0, rest, -, -, -, -, hcontent⟩ := taskMatch_some_decomp _ _ _ hm
    rw [hcontent, List.takeWhile_idem]

/-- C1 witness: a concrete matched item is rewritten as the amended claim
states. -/
theorem C1_task_item_rewrite_witness :
    run (Element.mk "li" [] (some " [X] done it") [] none) =
      Element.mk "li" [("class", "task-list-item")] (some "☑ done it") [] none := by
  have h := (C1_task_item_rewrite (Element.mk "li" [] (some " [X] done it") [] none)
    'X' "done it".data rfl (by decide)).1
  rw [h]
  decide

/-- C3 counterexample: a list item whose own concatenated text does not
match the pattern is still modified when a nested list item inside it
matches: the rewriter rewrites the nested item, so the outer node's
subtree is not preserved byte for byte. -/
theorem C3_nested_rewrite_counterexample :
    taskMatch (itertext (Element.mk "li" [] (some "no")
      [Element.mk "ul" [] none [Element.mk "li" [] (some "[x] a") [] none] none] none)) =
      none ∧
    run (Element.mk "li" [] (some "no")
        [Element.mk "ul" [] none [Element.mk "li" [] (some "[x] a") [] none] none] none) ≠
      Element.mk "li" [] (some "no")
        [Element.mk "ul" [] none [Element.mk "li" [] (some "[x] a") [] none] none] none :=
  ⟨by decide, by decide⟩

/-- C3 (amended): a list item whose concatenated text does not match the
pattern keeps its own tag, attributes (no marker attribute), text and tail
unchanged, and none of its direct children is removed: each child is only
processed recursively.  Its nested structure is preserved byte for byte
provided no descendant list item matches the pattern; a matching
descendant is still rewritten. -/
theorem C3_nonmatching_item_frame (e : Element)
    (htag : e.tag = "li") (hm : taskMatch (itertext e) = none) :
    (run e).tag = e.tag ∧ (run e).attrib = e.attrib ∧ (run e).text = e.text ∧
    (run e).tail = e.tail ∧ (run e).children = runList e.children ∧
    (run e).children.length = e.children.length ∧
    (clean e = true → run e = e) := by
  refine ⟨?_, ?_, ?_, ?_, ?_, ?_, fun h => run_of_clean e h⟩ <;>
  · rw [run_nomatch_eq e (Or.inr hm)]
    obtain ⟨tag, attrib, text, children, tail⟩ := e
    simp [Element.tag, Element.attrib, Element.text, Element.children, Element.tail,
      runList_length]

/-- C3 witness: a concrete unmatched item is left entirely unchanged. -/
theorem C3_nonmatching_item_frame_witness :
    run (Element.mk "li" [] (some "[y] nope") [] none) =
      Element.mk "li" [] (some "[y] nope") [] none :=
  (C3_nonmatching_item_frame (Element.mk "li" [] (some "[y] nope") [] none)
    rfl (by decide)).2.2.2.2.2.2 (by decide)

/-- Split a character list at newlines (the buffer's physical lines). -/
def splitLines (s : List Char) : List (List Char) :=
  match s with
  | [] => [[]]
  | c :: cs =>
    if c = '\n' then [] :: splitLines cs
    else
      match splitLines cs with
      | [] => [[c]]
      | l :: ls => (c :: l) :: ls

/-- Modelled from the spec: the external Markdown converter (a third-party
collaborator whose code is not part of src) parses a flat bullet list, one
item per leading dash-space line of the buffer, into a ul element whose li
children carry each line's remainder as their text; the registered
tasklist treeprocessor (which is in src) then runs over that tree. -/
def parseBulletList (buffer : String) : Element :=
  Element.mk "ul" [] none
    ((splitLines buffer.data).map
      (fun line => Element.mk "li" [] (some (String.mk (line.drop 2))) [] none))
    none

/-- C6: the example buffer renders a list whose first item's text is
"☑ Done", whose second is "☐ Todo", and whose third is unchanged as
"Not a task". -/
theorem C6_end_to_end_example :
    run (parseBulletList "- [x] Done\n- [ ] Todo\n- Not a task") =
      Element.mk "ul" [] none
        [Element.mk "li" [("class", "task-list-item")] (some "☑ Done") [] none,
         Element.mk "li" [("class", "task-list-item")] (some "☐ Todo") [] none,
         Element.mk "li" [] (some "Not a task") [] none] none := by
  decide

/-- C7: on a parsed tree in which no list item matches the task pattern
the rewriter is a no-op, and running it a second time is again a no-op. -/
theorem C7_clean_tree_noop (e : Element) (h : clean e = true) :
    run e = e ∧ run (run e) = e := by
  have h1 := run_of_clean e h
  exact ⟨h1, by rw [h1, h1]⟩

/-- C7 witness: a concrete marker-free tree is untouched by both passes. -/
theorem C7_clean_tree_noop_witness :
    run (Element.mk "ul" [] none
        [Element.mk "li" [] (some "alpha") [] none,
         Element.mk "li" [] (some "b [x] mid") [] none] none) =
      Element.mk "ul" [] none
        [Element.mk "li" [] (some "alpha") [] none,
         Element.mk "li" [] (some "b [x] mid") [] none] none ∧
    run (run (Element.mk "ul" [] none
        [Element.mk "li" [] (some "alpha") [] none,
         Element.mk "li" [] (some "b [x] mid") [] none] none)) =
      Element.mk "ul" [] none
        [Element.mk "li" [] (some "alpha") [] none,
         Element.mk "li" [] (some "b [x] mid") [] none] none :=
  C7_clean_tree_noop (Element.mk "ul" [] none
    [Element.mk "li" [] (some "alpha") [] none,
     Element.mk "li" [] (some "b [x] mid") [] none] none) (by decide)

/-- C9: the rewriter is idempotent on every tree: one pass leaves no li
whose text still matches (a rewritten item starts with a glyph, not with
an opening bracket), so a second pass changes nothing. -/
theorem C9_run_idempotent (e : Element) : run (run e) = run e :=
  run_of_clean (run e) (run_clean e)

/-- C10: rewriting a matched item erases every pre-existing attribute and
the tail text as well as the children: afterwards the only attribute is
the task-list-item class and the tail is gone. -/
theorem C10_rewrite_resets_node (e : Element) (c : Char) (content : List Char)
    (htag : e.tag = "li") (hm : taskMatch (itertext e) = some (c, content)) :
    (run e).attrib = [("class", "task-list-item")] ∧ (run e).tail = none ∧
    (run e).children = [] := by
  rw [run_match_eq e c content htag hm]
  exact ⟨rfl, rfl, rfl⟩

/-- C10 witness: a matched item carrying an id attribute and a tail loses
both. -/
theorem C10_rewrite_resets_node_witness :
    (run (Element.mk "li" [("id", "z")] (some "[ ] t") [] (some "TAIL"))).attrib =
      [("class", "task-list-item")] ∧
    (run (Element.mk "li" [("id", "z")] (some "[ ] t") [] (some "TAIL"))).tail = none ∧
    (run (Element.mk "li" [("id", "z")] (some "[ ] t") [] (some "TAIL"))).children = [] :=
  C10_rewrite_resets_node (Element.mk "li" [("id", "z")] (some "[ ] t") [] (some "TAIL"))
    ' ' "t".data rfl (by decide)

/-! The debounced render pipeline. -/

/-- Modelled from the spec: the single-shot GUI timer driving the debounce
is toolkit code, not part of src; lines 252 to 256 create it unarmed and
connect its timeout to update_preview, and schedule_preview_update
(line 315) restarts it with the full delay on every text change.  The
state is the pending render, when one exists: its fire deadline (event
time plus delay) and the buffer content the render would use.  Events
(time, buffer content after the change) are handled in time order; a
pending timer whose deadline has passed fires before the next event is
handled, and a fire appends one render carrying the buffer content at
fire time.  The result is the list of performed renders. -/
def debounceRun (delay : Nat) :
    List (Nat × String) → Option (Nat × String) → List (Nat × String)
  | [], none => []
  | [], some pending => [pending]
  | (t, b) :: rest, none => debounceRun delay rest (some (t + delay, b))
  | (t, b) :: rest, some (d, buf) =>
    if d ≤ t then (d, buf) :: debounceRun delay rest (some (t + delay, b))
    else debounceRun delay rest (some (t + delay, b))

/-- The pipeline starts with no pending render; the reference delay is 300
milliseconds (line 315). -/
def debounce (events : List (Nat × String)) : List (Nat × String) :=
  debounceRun 300 events none

/-- While a render is pending, a burst of events each arriving strictly
before the current deadline collapses into the single render scheduled by
the last event. -/
theorem debounceRun_pending (delay : Nat) :
    ∀ (evs : List (Nat × String)) (d : Nat) (buf : String),
      List.Chain' (fun x y : Nat × String => y.1 < x.1 + delay) evs →
      (∀ p, evs.head? = some p → p.1 < d) →
      debounceRun delay evs (some (d, buf)) =
        [evs.getLast?.elim (d, buf) (fun l => (l.1 + delay, l.2))] := by
  intro evs
  induction evs with
  | nil => intro d buf _ _; rfl
  | cons e rest ih =>
    intro d buf hchain hhead
    obtain ⟨t, b⟩ := e
    have ht : t < d := hhead (t, b) rfl
    have hstep : debounceRun delay ((t, b) :: rest) (some (d, buf)) =
        debounceRun delay rest (some (t + delay, b)) := by
      simp only [debounceRun]
      rw [if_neg (by omega)]
    rw [hstep, ih (t + delay) b hchain.tail ?_]
    · cases rest with
      | nil => rfl
      | cons q qs =>
        rw [List.getLast?_cons_cons]
        rfl
    · intro p hp
      cases rest with
      | nil => exact absurd hp (by simp)
      | cons q qs =>
        rw [List.head?_cons, Option.some.injEq] at hp
        have := (List.chain'_cons.mp hchain).1
        rw [← hp]
        exact this

/-- C2: the debounce state machine restarts the timer to the full delay on
every text change that arrives while a render is pending, and when the
timer fires exactly one render is performed with the buffer content at
fire time; consequently a nonempty burst of events, each arriving strictly
less than the quiet period after the previous one, yields exactly one
render, at (last event time + 300), reflecting the last event's buffer. -/
theorem C2_debounce_collapse :
    (∀ (t d : Nat) (b buf : String) (rest : List (Nat × String)), t < d →
      debounceRun 300 ((t, b) :: rest) (some (d, buf)) =
        debounceRun 300 rest (some (t + 300, b))) ∧
    (∀ (t1 : Nat) (b1 : String) (rest : List (Nat × String)),
      List.Chain' (fun x y : Nat × String => y.1 < x.1 + 300) ((t1, b1) :: rest) →
      debounce ((t1, b1) :: rest) =
        [((((t1, b1) :: rest).getLastD (t1, b1)).1 + 300,
          (((t1, b1) :: rest).getLastD (t1, b1)).2)]) := by
  constructor
  · intro t d b buf rest ht
    simp only [debounceRun]
    rw [if_neg (by omega)]
  · intro t1 b1 rest hchain
    have hstep : debounce ((t1, b1) :: rest) =
        debounceRun 300 rest (some (t1 + 300, b1)) := by
      simp only [debounce, debounceRun]
    rw [hstep, debounceRun_pending 300 rest (t1 + 300) b1 hchain.tail ?_]
    · rw [List.getLastD_cons, List.getLastD_eq_getLast?]
      cases hr : rest.getLast? with
      | none => rfl
      | some l => rfl
    · intro p hp
      cases rest with
      | nil => exact absurd hp (by simp)
      | cons q qs =>
        rw [List.head?_cons, Option.some.injEq] at hp
        have := (List.chain'_cons.mp hchain).1
        rw [← hp]
        exact this

/-- C2 witness: a pending render at deadline 50 is restarted by an event
at time 10, and a burst of three events spaced under 300 ms apart yields
one render at the last event time plus 300, with the last buffer. -/
theorem C2_debounce_collapse_witness :
    debounceRun 300 [(10, "x")] (some (50, "w")) =
      debounceRun 300 [] (some (310, "x")) ∧
    debounce [(0, "a"), (100, "ab"), (250, "abc")] = [(550, "abc")] := by
  constructor
  · exact C2_debounce_collapse.1 10 50 "x" "w" [] (by omega)
  · have h := C2_debounce_collapse.2 0 "a" [(100, "ab"), (250, "abc")]
      (by simp [List.chain'_cons])
    rw [h]
    decide

/-! The render step: stylesheet resolution, document shell, failure
propagation, and the base path for relative links. -/

/-- The fixed theme to stylesheet mapping of update_preview
(lines 421 to 425). -/
def theme_css_mapping : List (String × String) :=
  [("dark_theme.qss", "markdown_style_dark.css"),
   ("light_theme.qss", "markdown_style_light.css"),
   ("blue_theme.qss", "markdown_style_blue.css")]

/-- Stylesheet resolution of update_preview, lines 426 to 434: look the
current theme up in the mapping with markdown_style.css as the default;
read that resource; on FileNotFoundError read markdown_style.css; if that
is also missing use the empty string.  The resource reader is a function
from resource name to its content, none when absent. -/
def resolveCss (theme : String) (res : String → Option String) : String :=
  match res ((theme_css_mapping.lookup theme).getD "markdown_style.css") with
  | some css => css
  | none =>
    match res "markdown_style.css" with
    | some css => css
    | none => ""

/-- C4: the stylesheet resolution is a total fallback chain: a mapped theme
with its stylesheet present yields that stylesheet's CSS; an unmapped
theme yields the default stylesheet's content, or empty CSS when the
default is absent; a mapped theme whose stylesheet resource is missing
falls back the same way; resolution never fails. -/
theorem C4_css_fallback_chain :
    (∀ (theme f : String) (res : String → Option String) (css : String),
      theme_css_mapping.lookup theme = some f → res f = some css →
      resolveCss theme res = css) ∧
    (∀ (theme : String) (res : String → Option String),
      theme_css_mapping.lookup theme = none →
      resolveCss theme res = (res "markdown_style.css").getD "") ∧
    (∀ (theme f : String) (res : String → Option String),
      theme_css_mapping.lookup theme = some f → res f = none →
      resolveCss theme res = (res "markdown_style.css").getD "") := by
  refine ⟨?_, ?_, ?_⟩
  · intro theme f res css hl hr
    unfold resolveCss
    rw [hl, Option.getD_some, hr]
  · intro theme res hl
    unfold resolveCss
    rw [hl, Option.getD_none]
    cases hr : res "markdown_style.css" <;> simp [hr]
  · intro theme f res hl hr
    unfold resolveCss
    rw [hl, Option.getD_some, hr]
    cases hd : res "markdown_style.css" <;> simp [hd]

/-- C4 witness: the chain at a mapped theme with resource present, an
unmapped theme falling back to the default stylesheet, a mapped theme
whose stylesheet is missing, and an unmapped theme with nothing present at
all (empty CSS, no failure). -/
theorem C4_css_fallback_chain_witness :
    resolveCss "dark_theme.qss"
      (fun n => if n = "markdown_style_dark.css" then some "D" else none) = "D" ∧
    resolveCss "unknown_theme"
      (fun n => if n = "markdown_style.css" then some "M" else none) = "M" ∧
    resolveCss "dark_theme.qss"
      (fun n => if n = "markdown_style.css" then some "M" else none) = "M" ∧
    resolveCss "unknown_theme" (fun _ => none) = "" := by
  refine ⟨?_, ?_, ?_, ?_⟩
  · exact C4_css_fallback_chain.1 "dark_theme.qss" "markdown_style_dark.css" _ "D"
      (by decide) rfl
  · have h := C4_css_fallback_chain.2.1 "unknown_theme"
      (fun n => if n = "markdown_style.css" then some "M" else none) (by decide)
    rw [h]
    rfl
  · have h := C4_css_fallback_chain.2.2 "dark_theme.qss" "markdown_style_dark.css"
      (fun n => if n = "markdown_style.css" then some "M" else none) (by decide) (by decide)
    rw [h]
    rfl
  · have h := C4_css_fallback_chain.2.1 "unknown_theme" (fun _ => none) (by decide)
    rw [h]
    rfl

/-- The HTML document shell of update_preview (lines 436 to 447): a
minimal document embedding the CSS in a style block and the converted
fragment in the body, with the f-string's literal layout. -/
def htmlShell (css html : String) : String :=
  "\n        <!DOCTYPE html>\n        <html>\n        <head>\n            <meta charset=\"utf-8\">\n            <style>" ++
    css ++
    "</style>\n        </head>\n        <body>\n            " ++
    html ++
    "\n        </body>\n        </html>\n        "

/-- update_preview, lines 401 to 456, as a fallible computation: the
markdown conversion (line 408) runs with no surrounding handler inside
update_preview, so a conversion error propagates to the caller; on success
the stylesheet is resolved and the document shell is built. -/
def update_preview (convert : String → Except String String)
    (res : String → Option String) (theme markdown_text : String) :
    Except String String :=
  match convert markdown_text with
  | .error e => .error e
  | .ok html => .ok (htmlShell (resolveCss theme res) html)

/-- main.py, lines 3 to 17: the whole session runs inside one try block;
an exception reaching it prints "An error occurred: ..." and exits the
process with code 1.  The outcome is the exit code and the printed error
line, when one is printed. -/
def mainOutcome (session : Except String Nat) : Nat × Option String :=
  match session with
  | .ok code => (code, none)
  | .error e => (1, some ("An error occurred: " ++ e))

/-- C5: when the conversion step raises, the error propagates out of the
render step unchanged, and the top-level handler turns it into an error
message and exit code 1: the session terminates instead of recovering
per render. -/
theorem C5_conversion_failure_fatal (convert : String → Except String String)
    (res : String → Option String) (theme text e : String)
    (hraise : convert text = .error e) :
    update_preview convert res theme text = .error e ∧
    ∀ k : String → Nat,
      mainOutcome ((update_preview convert res theme text).map k) =
        (1, some ("An error occurred: " ++ e)) := by
  have h1 : update_preview convert res theme text = .error e := by
    unfold update_preview
    rw [hraise]
  exact ⟨h1, fun k => by rw [h1]; rfl⟩

/-- C5 witness: a failing conversion aborts the session with code 1 and
the top-level error line. -/
theorem C5_conversion_failure_fatal_witness :
    update_preview (fun _ => .error "boom") (fun _ => none) "dark_theme.qss" "bad"
      = .error "boom" ∧
    mainOutcome ((update_preview (fun _ => .error "boom") (fun _ => none)
        "dark_theme.qss" "bad").map (fun _ => 0)) =
      (1, some "An error occurred: boom") := by
  obtain ⟨h1, h2⟩ := C5_conversion_failure_fatal (fun _ => .error "boom")
    (fun _ => none) "dark_theme.qss" "bad" "boom" rfl
  exact ⟨h1, h2 (fun _ => 0)⟩

/-- posixpath.dirname: the prefix of the path up to the final slash; a
head consisting of slashes only is kept as is, otherwise trailing slashes
are stripped; a path with no slash has the empty dirname. -/
def dirname (p : String) : String :=
  let head := ((p.data.reverse).dropWhile (fun c => c ≠ '/')).reverse
  if head.isEmpty || head.all (fun c => c = '/') then String.mk head
  else String.mk ((head.reverse.dropWhile (fun c => c = '/')).reverse)

/-- The base path for relative links and images in update_preview, lines
449 to 455: the directory of the currently open file, with a trailing
slash, when a file path is set (Python truthiness: neither None nor the
empty string), otherwise the current working directory with a trailing
slash. -/
def preview_base_path (current_file_path : Option String) (cwd : String) : String :=
  match current_file_path with
  | some p => if p = "" then cwd ++ "/" else dirname p ++ "/"
  | none => cwd ++ "/"

/-- C8: the base resolution path equals the directory containing the open
file whenever a file is open, and the current working directory
otherwise. -/
theorem C8_base_path (cwd : String) :
    (∀ p : String, p ≠ "" → preview_base_path (some p) cwd = dirname p ++ "/") ∧
    preview_base_path none cwd = cwd ++ "/" := by
  refine ⟨fun p hp => ?_, rfl⟩
  show (if p = "" then cwd ++ "/" else dirname p ++ "/") = dirname p ++ "/"
  rw [if_neg hp]

/-- C8 witness: a concrete open file resolves to its directory, no open
file resolves to the working directory. -/
theorem C8_base_path_witness :
    preview_base_path (some "/home/u/notes/a.md") "/work" = "/home/u/notes" ++ "/" ∧
    preview_base_path none "/work" = "/work" ++ "/" := by
  constructor
  · have h := (C8_base_path "/work").1 "/home/u/notes/a.md" (by decide)
    rw [h]
    decide
  · exact (C8_base_path "/work").2

end Yamep

